import Mathlib

/-!
# Verification of the blinded-path devtool (create / unwrap)

A shallow embedding of `devtools/blindedpath.c`: construction and peeling of
blinded onion-message routes.

Modelling conventions:

* The secp256k1 group is represented by discrete logarithms: a public point is
  identified with its scalar w.r.t. the fixed generator, so both scalars and
  points live in `ZMod secpOrder`.  `secp256k1_ec_pubkey_tweak_mul` /
  `secp256k1_ec_privkey_tweak_mul` become multiplication in `ZMod secpOrder`,
  and `secp256k1_ecdh k P` becomes `sha256 (compress (k * P))`, exactly the
  hashed-compressed-point convention of libsecp256k1.
* Hash primitives (SHA-256, HMAC-SHA-256), point compression and the AEAD
  cipher are external library primitives; they are carried as fields of the
  `Crypto` and `Aead` structures, with only the laws the library guarantees
  (output lengths, compress/decompress and AEAD encrypt/decrypt round trips).
* The sphinx mix-net layer (`parse_onionpacket`, `process_onionpacket`,
  `serialize_onionpacket`) and the generated TLV marshalling code are part of
  the repository but outside the sources verified here; they are modelled from
  the specification where noted.
-/

namespace BlindedPath

/-- The order of the secp256k1 group. -/
def secpOrder : ℕ :=
  0xFFFFFFFFFFFFFFFFFFFFFFFFFFFFFFFEBAAEDCE6AF48A03BBFD25E8CD0364141

instance : NeZero secpOrder := ⟨by decide⟩

/-- A private scalar (32-byte private key, `struct privkey` / `struct secret`). -/
abbrev Scalar := ZMod secpOrder

/-- A public point, represented by its discrete logarithm (`struct pubkey`). -/
abbrev Point := ZMod secpOrder

/-- `secp256k1_ec_pubkey_tweak_mul`: multiply a point by a 32-byte scalar. -/
def tweakPoint (P : Point) (t : Scalar) : Point := t * P

/-- `secp256k1_ec_privkey_tweak_mul`: multiply a scalar by a 32-byte scalar. -/
def tweakScalar (e : Scalar) (t : Scalar) : Scalar := t * e

/-- `pubkey_from_privkey`: in the discrete-log representation the public point
of a scalar is the scalar itself. -/
def pubkeyOf (k : Scalar) : Point := k

/-- Little-endian byte decomposition, `k` bytes. -/
def natToBytes : ℕ → ℕ → List ℕ
  | 0, _ => []
  | k + 1, v => v % 256 :: natToBytes k (v / 256)

/-- Recompose a little-endian byte list into a number. -/
def bytesToNat : List ℕ → ℕ
  | [] => 0
  | b :: bs => b + 256 * bytesToNat bs

theorem natToBytes_length (k v : ℕ) : (natToBytes k v).length = k := by
  induction k generalizing v with
  | zero => rfl
  | succ n ih => simp [natToBytes, ih]

theorem bytesToNat_natToBytes (k v : ℕ) (h : v < 256 ^ k) :
    bytesToNat (natToBytes k v) = v := by
  induction k generalizing v with
  | zero => simp at h; simp [h, natToBytes, bytesToNat]
  | succ n ih =>
    have hdiv : v / 256 < 256 ^ n := by
      rw [Nat.div_lt_iff_lt_mul (by norm_num)]
      calc v < 256 ^ (n + 1) := h
        _ = 256 ^ n * 256 := by rw [Nat.pow_succ]
    simp only [natToBytes, bytesToNat, ih (v / 256) hdiv]
    exact Nat.mod_add_div v 256

/-- External hash / point-encoding primitives (SHA-256, HMAC-SHA-256,
compressed point (de)serialization), together with the laws the libraries
guarantee: compressed points are 33 bytes, serialized secrets are 32 bytes,
and decompression inverts compression. -/
structure Crypto where
  sha256 : List ℕ → Scalar
  hmacSHA256 : String → Scalar → Scalar
  compress : Point → List ℕ
  decompress : List ℕ → Option Point
  serSecret : Scalar → List ℕ
  compress_len : ∀ p, (compress p).length = 33
  serSecret_len : ∀ s, (serSecret s).length = 32
  decompress_compress : ∀ p, decompress (compress p) = some p

/-- `secp256k1_ecdh`: hash of the compressed product point. -/
def ecdh (C : Crypto) (k : Scalar) (P : Point) : Scalar :=
  C.sha256 (C.compress (tweakPoint P k))

/-- `subkey_from_hmac`: domain-separated subkey from a shared secret. -/
def subkey_from_hmac (C : Crypto) (label : String) (ss : Scalar) : Scalar :=
  C.hmacSHA256 label ss

def rhoLabel : String := "rho"

def blindedLabel : String := "blinded_node_id"

/-- `hash_e_and_ss`: SHA256 of the 33-byte compressed encoding of `e`
followed by the 32 bytes of `ss`. -/
def hash_e_and_ss (C : Crypto) (e : Point) (ss : Scalar) : Scalar :=
  C.sha256 (C.compress e ++ C.serSecret ss)

/-- `next_pubkey`: ratchet the ephemeral public point. -/
def next_pubkey (pk : Point) (h : Scalar) : Point := tweakPoint pk h

/-- `next_privkey`: ratchet the ephemeral scalar. -/
def next_privkey (e : Scalar) (h : Scalar) : Scalar := tweakScalar e h

/-- External AEAD primitive (ChaCha20-Poly1305, fixed all-zero 12-byte nonce,
no associated data): ciphertext is plaintext plus a 16-byte tag, and
decryption with the right key inverts encryption. -/
structure Aead where
  enc : Scalar → List ℕ → List ℕ
  dec : Scalar → List ℕ → Option (List ℕ)
  enc_len : ∀ k m, (enc k m).length = m.length + 16
  dec_enc : ∀ k m, dec k (enc k m) = some m

/-- `bigsize_put`: minimal variable-length encoding of a non-negative
integer (BOLT bigsize). -/
def bigsize_put (n : ℕ) : List ℕ :=
  if n < 0xfd then [n]
  else if n < 0x10000 then [0xfd, n / 256 % 256, n % 256]
  else if n < 0x100000000 then
    0xfe :: (List.range 4).map (fun i => n / 256 ^ (3 - i) % 256)
  else
    0xff :: (List.range 8).map (fun i => n / 256 ^ (7 - i) % 256)

/-- `fromwire_bigsize`: read a bigsize from the head of a byte list, rejecting
non-minimal encodings; returns the value and remaining bytes. -/
def fromwire_bigsize : List ℕ → Option (ℕ × List ℕ)
  | [] => none
  | b :: rest =>
    if b < 0xfd then some (b, rest)
    else if b = 0xfd then
      match rest with
      | b1 :: b0 :: r =>
        let v := b1 * 256 + b0
        if 0xfd ≤ v then some (v, r) else none
      | _ => none
    else if b = 0xfe then
      match rest with
      | b3 :: b2 :: b1 :: b0 :: r =>
        let v := ((b3 * 256 + b2) * 256 + b1) * 256 + b0
        if 0x10000 ≤ v then some (v, r) else none
      | _ => none
    else
      match rest with
      | b7 :: b6 :: b5 :: b4 :: b3 :: b2 :: b1 :: b0 :: r =>
        let v := ((((((b7 * 256 + b6) * 256 + b5) * 256 + b4) * 256 + b3)
          * 256 + b2) * 256 + b1) * 256 + b0
        if 0x100000000 ≤ v then some (v, r) else none
      | _ => none

theorem fromwire_bigsize_small (n : ℕ) (r : List ℕ) (h : n < 0xfd) :
    fromwire_bigsize (bigsize_put n ++ r) = some (n, r) := by
  simp [bigsize_put, fromwire_bigsize, h]

/-- Modelled from the spec: the generic TLV decoder (wire/tlvstream and the
generated `fromwire_*` code are not among the verified sources).  Reads
(type, length, value) triples until the bytes are exhausted; fails when a
triple is truncated or a declared length exceeds the remaining bytes.  The
fuel argument bounds recursion; callers pass the byte count. -/
def fromwire_tlvs : ℕ → List ℕ → Option (List (ℕ × List ℕ))
  | _, [] => some []
  | 0, _ :: _ => none
  | fuel + 1, b :: bs =>
    match fromwire_bigsize (b :: bs) with
    | none => none
    | some (ty, r1) =>
      match fromwire_bigsize r1 with
      | none => none
      | some (len, r2) =>
        if len ≤ r2.length then
          match fromwire_tlvs fuel (r2.drop len) with
          | none => none
          | some fs => some ((ty, r2.take len) :: fs)
        else none

/-- Modelled from the spec: one TLV record as emitted by the generated
`towire_*` code — bigsize type id, bigsize length, then the value bytes. -/
def towire_tlv (ty : ℕ) (v : List ℕ) : List ℕ :=
  bigsize_put ty ++ bigsize_put v.length ++ v

/-- The outer hop payload: at most one `enctlv` field (`struct
tlv_onionmsg_payload`). -/
structure TlvOnionmsgPayload where
  enctlv : Option (List ℕ)
deriving DecidableEq

/-- The decrypted inner payload: at most one `next_node_id` field (`struct
tlv_onionmsg_payload` inner encmsg tlvs). -/
structure EncmsgTlvs where
  next_node_id : Option Point
deriving DecidableEq

/-- Modelled from the spec: `towire_onionmsg_payload` — emit the `enctlv`
field (type id 4) when present, nothing otherwise. -/
def towire_onionmsg_payload (r : TlvOnionmsgPayload) : List ℕ :=
  match r.enctlv with
  | none => []
  | some v => towire_tlv 4 v

/-- Modelled from the spec: `fromwire_onionmsg_payload` — decode the TLV
stream, recording the `enctlv` field (type id 4) and retaining nothing else. -/
def fromwire_onionmsg_payload (bytes : List ℕ) : Option TlvOnionmsgPayload :=
  match fromwire_tlvs bytes.length bytes with
  | none => none
  | some fs =>
    some (fs.foldl
      (fun acc f => if f.1 = 4 then { enctlv := some f.2 } else acc)
      { enctlv := none })

/-- Modelled from the spec: `towire_encmsg_tlvs` — emit the `next_node_id`
field (type id 4, the 33-byte compressed point) when present. -/
def towire_encmsg (C : Crypto) (r : EncmsgTlvs) : List ℕ :=
  match r.next_node_id with
  | none => []
  | some p => towire_tlv 4 (C.compress p)

/-- Modelled from the spec: `fromwire_encmsg_tlvs` — decode the inner TLV
stream, parsing the `next_node_id` field as a compressed point (failing on an
invalid point). -/
def fromwire_encmsg (C : Crypto) (bytes : List ℕ) : Option EncmsgTlvs :=
  match fromwire_tlvs bytes.length bytes with
  | none => none
  | some fs =>
    fs.foldl
      (fun acc f =>
        match acc with
        | none => none
        | some a =>
          if f.1 = 4 then
            match C.decompress f.2 with
            | none => none
            | some p => some { next_node_id := some p }
          else some a)
      (some { next_node_id := none })

/-- Decoding an encoded single-field TLV stream whose value is shorter than
253 bytes recovers exactly that field. -/
theorem fromwire_tlvs_single (ty : ℕ) (v : List ℕ) (fuel : ℕ)
    (hty : ty < 0xfd) (hv : v.length < 0xfd) :
    fromwire_tlvs (fuel + 2) (towire_tlv ty v) = some [(ty, v)] := by
  have hput : towire_tlv ty v = ty :: v.length :: v := by
    simp [towire_tlv, bigsize_put, hty, hv]
  rw [hput]
  cases v with
  | nil =>
    show fromwire_tlvs (fuel + 1 + 1) (ty :: 0 :: []) = some [(ty, [])]
    generalize fuel + 1 = m
    simp [fromwire_tlvs, fromwire_bigsize, hty]
  | cons b bs =>
    have hv' : bs.length + 1 < 253 := by simpa using hv
    have h1 : fromwire_bigsize (ty :: (bs.length + 1) :: b :: bs)
        = some (ty, (bs.length + 1) :: b :: bs) := by
      simp only [fromwire_bigsize]
      rw [if_pos hty]
    have h2 : fromwire_bigsize ((bs.length + 1) :: b :: bs)
        = some (bs.length + 1, b :: bs) := by
      simp only [fromwire_bigsize]
      rw [if_pos hv']
    have hd : List.drop (bs.length + 1) (b :: bs) = [] := List.drop_length _
    have ht : List.take (bs.length + 1) (b :: bs) = b :: bs := by simp
    show fromwire_tlvs (fuel + 1 + 1) (ty :: (bs.length + 1) :: b :: bs)
      = some [(ty, b :: bs)]
    generalize fuel + 1 = m
    simp [fromwire_tlvs, h1, h2, hd, ht]

theorem fromwire_onionmsg_payload_nil :
    fromwire_onionmsg_payload [] = some { enctlv := none } := rfl

/-- Parsing the outer payload encoding of an `enctlv` value shorter than 253
bytes recovers it. -/
theorem fromwire_onionmsg_payload_enctlv (v : List ℕ) (hv : v.length < 0xfd) :
    fromwire_onionmsg_payload (towire_onionmsg_payload { enctlv := some v })
      = some { enctlv := some v } := by
  have hlen : (towire_tlv 4 v).length = v.length + 2 := by
    simp [towire_tlv, bigsize_put, hv]
  simp only [fromwire_onionmsg_payload, towire_onionmsg_payload, hlen]
  rw [fromwire_tlvs_single 4 v v.length (by norm_num) hv]
  simp [List.foldl]

/-- Parsing the inner encoding of a `next_node_id` recovers the point. -/
theorem fromwire_encmsg_next_node_id (C : Crypto) (p : Point) :
    fromwire_encmsg C (towire_encmsg C { next_node_id := some p })
      = some { next_node_id := some p } := by
  have hc := C.compress_len p
  have hlen : (towire_tlv 4 (C.compress p)).length = 33 + 2 := by
    simp [towire_tlv, bigsize_put, hc]
  simp only [fromwire_encmsg, towire_encmsg, hlen]
  rw [fromwire_tlvs_single 4 (C.compress p) 33 (by norm_num)
    (by rw [hc]; norm_num)]
  simp [List.foldl, C.decompress_compress p]

/-! ## The external mix-net (sphinx) layer

Modelled from the spec: the fixed-size mix-net packet library
(`parse_onionpacket` / `process_onionpacket` / `serialize_onionpacket`) is an
external collaborator with the contract
`process(Packet, SharedSecret) -> {payload, nextPacket, isTerminal} | ParseError`.
A packet is idealized as the list of its per-hop layers, each remembering the
ephemeral point the packet exposes at that hop, the shared secret the creator
sealed the layer with, and the raw hop payload; `process` succeeds exactly
when it is given that shared secret, and signals route termination
(`ONION_END`) at the layer the creator marked last. -/

/-- One sealed layer of the idealized mix-net packet. -/
structure OnionHop where
  eph : Point
  ss : Scalar
  payload : List ℕ
deriving DecidableEq

/-- Modelled from the spec: the parsed onion packet (`struct onionpacket`). -/
structure OnionPacket where
  hops : List OnionHop
deriving DecidableEq

/-- The ephemeral public key the packet currently exposes
(`op.ephemeralkey`). -/
def OnionPacket.ephemeralkey (op : OnionPacket) : Point :=
  match op.hops with
  | [] => 0
  | h :: _ => h.eph

/-- Modelled from the spec: the result of `process_onionpacket`
(`struct route_step`); `isTerminal` stands for `nextcase == ONION_END`. -/
structure RouteStep where
  rawPayload : List ℕ
  next : OnionPacket
  isTerminal : Bool
deriving DecidableEq

/-- Modelled from the spec: `process_onionpacket` — peel one layer; succeeds
exactly when handed the shared secret the layer was sealed with. -/
def process (op : OnionPacket) (ss : Scalar) : Option RouteStep :=
  match op.hops with
  | [] => none
  | h :: rest => if h.ss = ss then some ⟨h.payload, ⟨rest⟩, rest.isEmpty⟩ else none

/-- Modelled from the spec: creation of the mix-net packet over a path of
(recipient point, raw payload) pairs — each layer is sealed with the ECDH
secret between the running session scalar and the recipient point, and the
session scalar is ratcheted by `H(E || ss)` exactly as in sphinx. -/
def mkOnionHops (C : Crypto) : Scalar → List (Point × List ℕ) → List OnionHop
  | _, [] => []
  | s, (b, pl) :: rest =>
    let ss := ecdh C s b
    ⟨pubkeyOf s, ss, pl⟩ ::
      mkOnionHops C (tweakScalar s (hash_e_and_ss C (pubkeyOf s) ss)) rest

/-- The packet built over a path. -/
def mkOnion (C : Crypto) (s : Scalar) (path : List (Point × List ℕ)) :
    OnionPacket :=
  ⟨mkOnionHops C s path⟩

/-! ## The `create` branch -/

/-- The per-hop state of the create loop: ephemeral scalar `e(i)`, ephemeral
point `E(i) = pk_e[i]`, the recipient `node(i)`, shared secret `ss(i)`,
blinded identity `b(i)` and payload key `rho(i)`. -/
structure Hop where
  e : Scalar
  pkE : Point
  node : Point
  ss : Scalar
  b : Point
  rho : Scalar
deriving DecidableEq

/-- The first loop of the create branch: derive, for each node, the shared
secret, the blinded identity (the first hop is never tweaked), the rho
subkey, and ratchet the ephemeral keypair. -/
def createHops (C : Crypto) : Bool → Scalar → Point → List Point → List Hop
  | _, _, _, [] => []
  | isFirst, e, pkE, n :: rest =>
    let ss := ecdh C e n
    let tweak := subkey_from_hmac C blindedLabel ss
    let b := if isFirst then n else tweakPoint n tweak
    let rho := subkey_from_hmac C rhoLabel ss
    let h := hash_e_and_ss C pkE ss
    { e := e, pkE := pkE, node := n, ss := ss, b := b, rho := rho } ::
      createHops C false (next_privkey e h) (next_pubkey pkE h) rest

/-- One non-terminal hop payload as printed by create: the inner TLV holding
the next node id, AEAD-encrypted under rho into the `enctlv` field of the
outer TLV, framed by its bigsize byte count. -/
def framedPayload (C : Crypto) (A : Aead) (rho : Scalar) (nextNode : Point) :
    List ℕ :=
  let p := towire_encmsg C { next_node_id := some nextNode }
  let ct := A.enc rho p
  let outerBytes := towire_onionmsg_payload { enctlv := some ct }
  bigsize_put outerBytes.length ++ outerBytes

/-- The second loop of the create branch: each non-terminal hop gets its
blinded identity and framed payload; the last hop gets the zero-length
payload (printed as `/00`). -/
def mkPayloads (C : Crypto) (A : Aead) : List Hop → List (Point × List ℕ)
  | [] => []
  | [h] => [(h.b, bigsize_put 0)]
  | h :: h2 :: rest =>
    (h.b, framedPayload C A h.rho h2.node) :: mkPayloads C A (h2 :: rest)

/-- The bytes of the fixed initial ephemeral private key: `memset(&e, 6,
sizeof(e))`, i.e. 32 bytes each equal to 0x06. -/
def e0 : Scalar := ((bytesToNat (List.replicate 32 6) : ℕ) : Scalar)

/-- What the create branch prints: the initial blinding point and the ordered
(blinded id, payload bytes) pairs. -/
structure CreateOut where
  blinding : Point
  route : List (Point × List ℕ)
deriving DecidableEq

/-- The create branch for a given initial ephemeral scalar. -/
def createRun (C : Crypto) (A : Aead) (e : Scalar) (nodes : List Point) :
    CreateOut :=
  ⟨pubkeyOf e, mkPayloads C A (createHops C true e (pubkeyOf e) nodes)⟩

/-- The create branch: requires at least one node, and always starts from the
fixed ephemeral key `e0`. -/
def create (C : Crypto) (A : Aead) (nodes : List Point) : Option CreateOut :=
  if nodes.isEmpty then none else some (createRun C A e0 nodes)

/-! ## The `unwrap` branch -/

/-- What one unwrap invocation does: exit 1 with a message (`errx`), print
TERMINAL, abort on the `assert(len == max)` length check, or print the
decrypted contents, next blinding point and next onion. -/
inductive UnwrapOut where
  | err (msg : String)
  | terminal
  | assertFail
  | success (contents : List ℕ) (nextBlinding : Point) (nextOnion : OnionPacket)
deriving DecidableEq

def msgNoProcess : String := "Could not process onionpacket"

def msgInvalidPayload : String := "Invalid payload"

def msgNoEnctlv : String := "No enctlv field"

def msgEnctlvShort : String := "enctlv field too short"

def msgDecryptFailed : String := "Failed to decrypt enctlv field"

/-- The shared secret the unwrap branch hands to the mix-net layer: the
ECDH of the private key with the onion packet's ephemeral key, which is
first multiplied by the `blinded_node_id` subkey of `ECDH(k, E)` unless
`--first-node` is given. -/
def unwrapOnionSS (C : Crypto) (first : Bool) (k : Scalar) (op : OnionPacket)
    (E : Point) : Scalar :=
  ecdh C k (if first then op.ephemeralkey
    else tweakPoint op.ephemeralkey
      (subkey_from_hmac C blindedLabel (ecdh C k E)))

/-- The unwrap branch, after argument parsing: derive the shared secret and
subkeys from the received blinding point, tweak the onion's ephemeral key
(unless `--first-node`), process the packet, read and check the bigsize
length prefix (an `assert`), decode the outer TLV, report TERMINAL at
route end, otherwise require and decrypt `enctlv` and print the contents,
next blinding point and next onion. -/
def unwrap (C : Crypto) (A : Aead) (first : Bool) (k : Scalar)
    (op : OnionPacket) (E : Point) : UnwrapOut :=
  let ss := ecdh C k E
  let rho := subkey_from_hmac C rhoLabel ss
  let hm := subkey_from_hmac C blindedLabel ss
  let res := if first then op.ephemeralkey else tweakPoint op.ephemeralkey hm
  let onion_ss := ecdh C k res
  match process op onion_ss with
  | none => UnwrapOut.err msgNoProcess
  | some rs =>
    match fromwire_bigsize rs.rawPayload with
    | none => UnwrapOut.err msgInvalidPayload
    | some (len, rest) =>
      if len = rest.length then
        match fromwire_onionmsg_payload rest with
        | none => UnwrapOut.err msgInvalidPayload
        | some outer =>
          if rs.isTerminal then UnwrapOut.terminal
          else
            match outer.enctlv with
            | none => UnwrapOut.err msgNoEnctlv
            | some ct =>
              if ct.length < 16 then UnwrapOut.err msgEnctlvShort
              else
                match A.dec rho ct with
                | none => UnwrapOut.err msgDecryptFailed
                | some dec =>
                  UnwrapOut.success dec
                    (next_pubkey E (hash_e_and_ss C E ss)) rs.next
      else UnwrapOut.assertFail

/-- Run unwrap at each successive hop, feeding the printed next onion and
next blinding point forward; the first-hop flag is set only at hop 0. -/
def unwrapAll (C : Crypto) (A : Aead) :
    List Scalar → Bool → OnionPacket → Point → List UnwrapOut
  | [], _, _, _ => []
  | k :: rest, first, op, E =>
    match unwrap C A first k op E with
    | UnwrapOut.success c nb op2 =>
      UnwrapOut.success c nb op2 :: unwrapAll C A rest false op2 nb
    | r => [r]

/-! ## Concrete primitive instances

Executable stand-ins for the external primitives, used to evaluate the
development on concrete inputs.  `cSimple.sha256` recomposes its input bytes
into a number, so it is injective on the fixed-width encodings produced by
`compress` and `serSecret`. -/

/-- A concrete, executable `Crypto` instance. -/
def cSimple : Crypto where
  sha256 := fun l => ((bytesToNat l : ℕ) : Scalar)
  hmacSHA256 := fun label s => s + ((label.length : ℕ) : Scalar)
  compress := fun p => natToBytes 33 p.val
  decompress := fun l =>
    if l.length = 33 then some ((bytesToNat l : ℕ) : Scalar) else none
  serSecret := fun s => natToBytes 32 s.val
  compress_len := fun p => natToBytes_length 33 p.val
  serSecret_len := fun s => natToBytes_length 32 s.val
  decompress_compress := fun p => by
    have hval : p.val < 256 ^ 33 :=
      lt_trans (ZMod.val_lt p) (by norm_num [secpOrder])
    simp [natToBytes_length, bytesToNat_natToBytes 33 p.val hval,
      ZMod.natCast_rightInverse p]

/-- A concrete, executable `Aead` instance: the tag is 16 key-derived bytes
appended to the plaintext, and decryption checks the tag. -/
def aSimple : Aead where
  enc := fun k m => m ++ natToBytes 16 k.val
  dec := fun k c =>
    if 16 ≤ c.length ∧ c.drop (c.length - 16) = natToBytes 16 k.val then
      some (c.take (c.length - 16))
    else none
  enc_len := fun k m => by simp [natToBytes_length]
  dec_enc := fun k m => by
    have hlen : (m ++ natToBytes 16 k.val).length = m.length + 16 := by
      simp [natToBytes_length]
    have hd : (m ++ natToBytes 16 k.val).drop (m.length + 16 - 16)
        = natToBytes 16 k.val := by
      simp
    have ht : (m ++ natToBytes 16 k.val).take (m.length + 16 - 16) = m := by
      simp
    simp [hlen, hd, ht]

/-! ## Algebraic facts about the shared-secret derivations -/

theorem ecdh_comm (C : Crypto) (a b : Scalar) :
    ecdh C a (pubkeyOf b) = ecdh C b (pubkeyOf a) := by
  unfold ecdh tweakPoint pubkeyOf
  rw [mul_comm]

theorem ecdh_swap (C : Crypto) (a b c : Scalar) :
    ecdh C a (c * b) = ecdh C b (c * a) := by
  unfold ecdh tweakPoint
  exact congrArg _ (congrArg _ (by ring))

/-- The `blinded_node_id` tweak a hop's creator derives for it. -/
def hopTweak (C : Crypto) (t k : Scalar) : Scalar :=
  subkey_from_hmac C blindedLabel (ecdh C t (pubkeyOf k))

/-- The blinded identity create publishes for a hop reached with chain
scalar `t` (untweaked at the designated first hop). -/
def hopBlind (C : Crypto) (f : Bool) (t k : Scalar) : Point :=
  if f then pubkeyOf k else tweakPoint (pubkeyOf k) (hopTweak C t k)

/-- The next value of the blinding chain after a hop. -/
def hopRatchet (C : Crypto) (t k : Scalar) : Scalar :=
  tweakScalar t (hash_e_and_ss C (pubkeyOf t) (ecdh C t (pubkeyOf k)))

/-- The mix-net session scalar after peeling a layer sealed for point `b`. -/
def sessionRatchet (C : Crypto) (s : Scalar) (b : Point) : Scalar :=
  tweakScalar s (hash_e_and_ss C (pubkeyOf s) (ecdh C s b))

/-- The secret the unwrapping hop hands to the mix-net layer equals the
secret the onion creator sealed the layer with: tweaking the onion ephemeral
by the receiver-side `blinded_node_id` subkey matches ECDH against the
tweaked (blinded) identity. -/
theorem ecdh_blind_eq (C : Crypto) (f : Bool) (k t s : Scalar) :
    ecdh C k (if f then pubkeyOf s
        else tweakPoint (pubkeyOf s)
          (subkey_from_hmac C blindedLabel (ecdh C k (pubkeyOf t))))
      = ecdh C s (hopBlind C f t k) := by
  cases f with
  | true =>
    simp only [if_true, hopBlind]
    exact ecdh_comm C k s
  | false =>
    simp only [if_false, hopBlind, hopTweak, tweakPoint]
    rw [ecdh_comm C k t]
    exact ecdh_swap C k s _

theorem mkOnionHops_ne_nil (C : Crypto) (s : Scalar) (p : Point × List ℕ)
    (ps : List (Point × List ℕ)) :
    (mkOnionHops C s (p :: ps)).isEmpty = false := by
  cases p with
  | mk b pl => simp [mkOnionHops]

theorem mkPayloads_cons (C : Crypto) (A : Aead) (h : Hop) (l : List Hop) :
    ∃ q qs, mkPayloads C A (h :: l) = q :: qs := by
  cases l with
  | nil => exact ⟨_, _, rfl⟩
  | cons h2 tl => exact ⟨_, _, rfl⟩

/-! ## Round-trip step lemmas -/

/-- Unwrapping the last hop of a created route reports TERMINAL. -/
theorem unwrap_last (C : Crypto) (A : Aead) (f : Bool) (k t s : Scalar) :
    unwrap C A f k
        (mkOnion C s (mkPayloads C A (createHops C f t (pubkeyOf t) [k])))
        (pubkeyOf t)
      = UnwrapOut.terminal := by
  have hhops : createHops C f t (pubkeyOf t) [k]
      = [{ e := t, pkE := pubkeyOf t, node := k, ss := ecdh C t (pubkeyOf k),
            b := hopBlind C f t k,
            rho := subkey_from_hmac C rhoLabel (ecdh C t (pubkeyOf k)) }] := by
    simp [createHops, hopBlind, hopTweak, pubkeyOf]
  have hpl : mkPayloads C A (createHops C f t (pubkeyOf t) [k])
      = [(hopBlind C f t k, [0])] := by
    rw [hhops]; rfl
  have honion : mkOnion C s [(hopBlind C f t k, [0])]
      = ⟨[⟨pubkeyOf s, ecdh C s (hopBlind C f t k), [0]⟩]⟩ := rfl
  rw [hpl, honion]
  have hss : ecdh C k (if f then pubkeyOf s
      else tweakPoint (pubkeyOf s)
        (subkey_from_hmac C blindedLabel (ecdh C k (pubkeyOf t))))
      = ecdh C s (hopBlind C f t k) := ecdh_blind_eq C f k t s
  simp only [unwrap, OnionPacket.ephemeralkey]
  rw [hss]
  simp [process, fromwire_onionmsg_payload_nil, fromwire_bigsize]

/-- The outer TLV record of one non-terminal hop payload. -/
def obPayload (C : Crypto) (A : Aead) (rh : Scalar) (p : Point) :
    TlvOnionmsgPayload :=
  { enctlv := some (A.enc rh (towire_encmsg C { next_node_id := some p })) }

/-- The serialized outer TLV of one non-terminal hop payload. -/
def obBytes (C : Crypto) (A : Aead) (rh : Scalar) (p : Point) : List ℕ :=
  towire_onionmsg_payload (obPayload C A rh p)

theorem towire_encmsg_len (C : Crypto) (p : Point) :
    (towire_encmsg C { next_node_id := some p }).length = 35 := by
  simp [towire_encmsg, towire_tlv, bigsize_put, C.compress_len]

theorem ct_len (C : Crypto) (A : Aead) (rh : Scalar) (p : Point) :
    (A.enc rh (towire_encmsg C { next_node_id := some p })).length = 51 := by
  rw [A.enc_len, towire_encmsg_len]

theorem obBytes_len (C : Crypto) (A : Aead) (rh : Scalar) (p : Point) :
    (obBytes C A rh p).length = 53 := by
  simp [obBytes, obPayload, towire_onionmsg_payload, towire_tlv, bigsize_put,
    ct_len]

theorem framed_bigsize (C : Crypto) (A : Aead) (rh : Scalar) (p : Point) :
    fromwire_bigsize (framedPayload C A rh p)
      = some ((obBytes C A rh p).length, obBytes C A rh p) := by
  have hfr : framedPayload C A rh p
      = bigsize_put (obBytes C A rh p).length ++ obBytes C A rh p := rfl
  rw [hfr]
  exact fromwire_bigsize_small _ _ (by rw [obBytes_len]; norm_num)

theorem ob_parse (C : Crypto) (A : Aead) (rh : Scalar) (p : Point) :
    fromwire_onionmsg_payload (obBytes C A rh p) = some (obPayload C A rh p) :=
  fromwire_onionmsg_payload_enctlv _ (by rw [ct_len]; norm_num)

theorem obPayload_enctlv (C : Crypto) (A : Aead) (rh : Scalar) (p : Point) :
    (obPayload C A rh p).enctlv
      = some (A.enc rh (towire_encmsg C { next_node_id := some p })) := rfl

/-- Unwrapping a non-terminal hop of a created route succeeds: the decrypted
contents are the inner TLV naming the next node, the next blinding point is
the next chain value, and the next onion is the packet for the remaining
route. -/
theorem unwrap_cons (C : Crypto) (A : Aead) (f : Bool)
    (k k2 t s : Scalar) (ks : List Scalar) :
    unwrap C A f k
        (mkOnion C s
          (mkPayloads C A (createHops C f t (pubkeyOf t) (k :: k2 :: ks))))
        (pubkeyOf t)
      = UnwrapOut.success
          (towire_encmsg C { next_node_id := some (pubkeyOf k2) })
          (pubkeyOf (hopRatchet C t k))
          (mkOnion C (sessionRatchet C s (hopBlind C f t k))
            (mkPayloads C A
              (createHops C false (hopRatchet C t k)
                (pubkeyOf (hopRatchet C t k)) (k2 :: ks)))) := by
  have hOp : mkOnion C s
      (mkPayloads C A (createHops C f t (pubkeyOf t) (k :: k2 :: ks)))
      = ⟨⟨pubkeyOf s, ecdh C s (hopBlind C f t k),
            framedPayload C A
              (subkey_from_hmac C rhoLabel (ecdh C t (pubkeyOf k)))
              (pubkeyOf k2)⟩ ::
          mkOnionHops C (sessionRatchet C s (hopBlind C f t k))
            (mkPayloads C A
              (createHops C false (hopRatchet C t k)
                (pubkeyOf (hopRatchet C t k)) (k2 :: ks)))⟩ := rfl
  rw [hOp]
  have hss : ecdh C k (if f then pubkeyOf s
      else tweakPoint (pubkeyOf s)
        (subkey_from_hmac C blindedLabel (ecdh C k (pubkeyOf t))))
      = ecdh C s (hopBlind C f t k) := ecdh_blind_eq C f k t s
  simp only [unwrap, OnionPacket.ephemeralkey]
  rw [hss]
  have hterm : (mkOnionHops C (sessionRatchet C s (hopBlind C f t k))
      (mkPayloads C A
        (createHops C false (hopRatchet C t k)
          (pubkeyOf (hopRatchet C t k)) (k2 :: ks)))).isEmpty = false := by
    obtain ⟨q, qs, hq⟩ := mkPayloads_cons C A
      { e := hopRatchet C t k, pkE := pubkeyOf (hopRatchet C t k),
        node := pubkeyOf k2,
        ss := ecdh C (hopRatchet C t k) (pubkeyOf k2),
        b := hopBlind C false (hopRatchet C t k) k2,
        rho := subkey_from_hmac C rhoLabel
          (ecdh C (hopRatchet C t k) (pubkeyOf k2)) }
      (createHops C false
        (next_privkey (hopRatchet C t k)
          (hash_e_and_ss C (pubkeyOf (hopRatchet C t k))
            (ecdh C (hopRatchet C t k) (pubkeyOf k2))))
        (next_pubkey (pubkeyOf (hopRatchet C t k))
          (hash_e_and_ss C (pubkeyOf (hopRatchet C t k))
            (ecdh C (hopRatchet C t k) (pubkeyOf k2)))) ks)
    have hch : createHops C false (hopRatchet C t k)
        (pubkeyOf (hopRatchet C t k)) (k2 :: ks)
        = { e := hopRatchet C t k, pkE := pubkeyOf (hopRatchet C t k),
            node := pubkeyOf k2,
            ss := ecdh C (hopRatchet C t k) (pubkeyOf k2),
            b := hopBlind C false (hopRatchet C t k) k2,
            rho := subkey_from_hmac C rhoLabel
              (ecdh C (hopRatchet C t k) (pubkeyOf k2)) } ::
          createHops C false
            (next_privkey (hopRatchet C t k)
              (hash_e_and_ss C (pubkeyOf (hopRatchet C t k))
                (ecdh C (hopRatchet C t k) (pubkeyOf k2))))
            (next_pubkey (pubkeyOf (hopRatchet C t k))
              (hash_e_and_ss C (pubkeyOf (hopRatchet C t k))
                (ecdh C (hopRatchet C t k) (pubkeyOf k2)))) ks := rfl
    rw [hch, hq]
    exact mkOnionHops_ne_nil C _ q qs
  have hcomm : ecdh C k (pubkeyOf t) = ecdh C t (pubkeyOf k) := ecdh_comm C k t
  have hbs := framed_bigsize C A
    (subkey_from_hmac C rhoLabel (ecdh C t (pubkeyOf k))) (pubkeyOf k2)
  have hparse := ob_parse C A
    (subkey_from_hmac C rhoLabel (ecdh C t (pubkeyOf k))) (pubkeyOf k2)
  have hctl := ct_len C A
    (subkey_from_hmac C rhoLabel (ecdh C t (pubkeyOf k))) (pubkeyOf k2)
  have hdec := A.dec_enc
    (subkey_from_hmac C rhoLabel (ecdh C t (pubkeyOf k)))
    (towire_encmsg C { next_node_id := some (pubkeyOf k2) })
  have hnb : next_pubkey (pubkeyOf t)
      (hash_e_and_ss C (pubkeyOf t) (ecdh C t (pubkeyOf k)))
      = pubkeyOf (hopRatchet C t k) := rfl
  simp [process, hterm, hcomm, hbs, hparse, hctl, hdec, hnb, mkOnion,
    obPayload_enctlv]

/-- The full route round trip, generalized over the hop flag, the blinding
chain state and the mix-net session scalar: unwrapping hop by hop yields one
result per hop, each non-terminal hop's decrypted contents name the next
node, and the last hop reports TERMINAL. -/
theorem unwrapAll_correct (C : Crypto) (A : Aead) :
    ∀ (ks : List Scalar) (f : Bool) (t s : Scalar), ks ≠ [] →
      (unwrapAll C A ks f
          (mkOnion C s (mkPayloads C A (createHops C f t (pubkeyOf t) ks)))
          (pubkeyOf t)).length = ks.length ∧
      (∀ i nk, ks[i + 1]? = some nk →
        ∃ c nb op2,
          (unwrapAll C A ks f
              (mkOnion C s
                (mkPayloads C A (createHops C f t (pubkeyOf t) ks)))
              (pubkeyOf t))[i]? = some (UnwrapOut.success c nb op2) ∧
          fromwire_encmsg C c = some { next_node_id := some (pubkeyOf nk) }) ∧
      (unwrapAll C A ks f
          (mkOnion C s (mkPayloads C A (createHops C f t (pubkeyOf t) ks)))
          (pubkeyOf t))[ks.length - 1]? = some UnwrapOut.terminal := by
  intro ks
  induction ks with
  | nil => intro f t s h; exact absurd rfl h
  | cons k ks ih =>
    intro f t s _
    cases ks with
    | nil =>
      have h1 := unwrap_last C A f k t s
      refine ⟨?_, ?_, ?_⟩
      · simp [unwrapAll, h1]
      · intro i nk hnk
        simp at hnk
      · simp [unwrapAll, h1]
    | cons k2 rest =>
      have h1 := unwrap_cons C A f k k2 t s rest
      obtain ⟨ihlen, ihmid, ihlast⟩ :=
        ih false (hopRatchet C t k)
          (sessionRatchet C s (hopBlind C f t k)) (by simp)
      have hall : unwrapAll C A (k :: k2 :: rest) f
          (mkOnion C s
            (mkPayloads C A (createHops C f t (pubkeyOf t) (k :: k2 :: rest))))
          (pubkeyOf t)
          = UnwrapOut.success
              (towire_encmsg C { next_node_id := some (pubkeyOf k2) })
              (pubkeyOf (hopRatchet C t k))
              (mkOnion C (sessionRatchet C s (hopBlind C f t k))
                (mkPayloads C A
                  (createHops C false (hopRatchet C t k)
                    (pubkeyOf (hopRatchet C t k)) (k2 :: rest)))) ::
            unwrapAll C A (k2 :: rest) false
              (mkOnion C (sessionRatchet C s (hopBlind C f t k))
                (mkPayloads C A
                  (createHops C false (hopRatchet C t k)
                    (pubkeyOf (hopRatchet C t k)) (k2 :: rest))))
              (pubkeyOf (hopRatchet C t k)) := by
        simp only [unwrapAll, h1]
      refine ⟨?_, ?_, ?_⟩
      · rw [hall]
        simp only [List.length_cons, ihlen]
      · intro i nk hnk
        cases i with
        | zero =>
          rw [List.getElem?_cons_succ, List.getElem?_cons_zero] at hnk
          obtain rfl : k2 = nk := by exact Option.some.inj hnk
          refine ⟨towire_encmsg C { next_node_id := some (pubkeyOf k2) },
            pubkeyOf (hopRatchet C t k),
            mkOnion C (sessionRatchet C s (hopBlind C f t k))
              (mkPayloads C A
                (createHops C false (hopRatchet C t k)
                  (pubkeyOf (hopRatchet C t k)) (k2 :: rest))),
            ?_, fromwire_encmsg_next_node_id C (pubkeyOf k2)⟩
          rw [hall, List.getElem?_cons_zero]
        | succ j =>
          rw [List.getElem?_cons_succ] at hnk
          obtain ⟨c, nb, op2, hout, hdec⟩ := ihmid j nk hnk
          refine ⟨c, nb, op2, ?_, hdec⟩
          rw [hall, List.getElem?_cons_succ]
          exact hout
      · rw [hall]
        have hlen : (k :: k2 :: rest).length - 1 = (k2 :: rest).length := by
          simp
        rw [hlen]
        have hlen2 : (k2 :: rest).length = ((k2 :: rest).length - 1) + 1 := by
          simp
        rw [hlen2, List.getElem?_cons_succ]
        exact ihlast

/-! ## Claim theorems -/

/-- C1: for every route of N ≥ 1 valid node keypairs, running create on the
node public keys and then unwrap at each successive hop with that hop's
private key (with the first-hop flag set only at hop 0, each time feeding the
printed next onion and next blinding point forward) recovers, at every hop
i < N−1, a decrypted inner TLV whose `next_node_id` equals node i+1's public
key, and at hop N−1 reports TERMINAL. -/
theorem create_unwrap_round_trip (C : Crypto) (A : Aead) (ks : List Scalar)
    (s : Scalar) (hne : ks ≠ []) (_hv : ∀ k ∈ ks, k ≠ 0) :
    ∃ out, create C A (ks.map pubkeyOf) = some out ∧
      (unwrapAll C A ks true (mkOnion C s out.route) out.blinding).length
        = ks.length ∧
      (∀ i nk, ks[i + 1]? = some nk →
        ∃ c nb op2,
          (unwrapAll C A ks true (mkOnion C s out.route) out.blinding)[i]?
            = some (UnwrapOut.success c nb op2) ∧
          fromwire_encmsg C c = some { next_node_id := some (pubkeyOf nk) }) ∧
      (unwrapAll C A ks true
          (mkOnion C s out.route) out.blinding)[ks.length - 1]?
        = some UnwrapOut.terminal := by
  have hmap : ks.map pubkeyOf = ks := List.map_id ks
  have hcreate : create C A (ks.map pubkeyOf) = some (createRun C A e0 ks) := by
    rw [hmap]
    unfold create
    rw [if_neg (by simpa [List.isEmpty_iff] using hne)]
  refine ⟨createRun C A e0 ks, hcreate, ?_⟩
  have hout : (createRun C A e0 ks).blinding = pubkeyOf e0 := rfl
  have hroute : (createRun C A e0 ks).route
      = mkPayloads C A (createHops C true e0 (pubkeyOf e0) ks) := rfl
  rw [hout, hroute]
  exact unwrapAll_correct C A ks true e0 s hne

/-- C1 witness: the round trip instantiated with the concrete primitives, a
two-hop route and session scalar 1. -/
theorem create_unwrap_round_trip_witness :
    ([(1 : Scalar), 2] ≠ [] ∧ ∀ k ∈ [(1 : Scalar), 2], k ≠ 0) ∧
      (∃ out, create cSimple aSimple ([(1 : Scalar), 2].map pubkeyOf)
          = some out ∧
        (unwrapAll cSimple aSimple [(1 : Scalar), 2] true
            (mkOnion cSimple 1 out.route) out.blinding).length
          = [(1 : Scalar), 2].length ∧
        (∀ i nk, [(1 : Scalar), 2][i + 1]? = some nk →
          ∃ c nb op2,
            (unwrapAll cSimple aSimple [(1 : Scalar), 2] true
                (mkOnion cSimple 1 out.route) out.blinding)[i]?
              = some (UnwrapOut.success c nb op2) ∧
            fromwire_encmsg cSimple c
              = some { next_node_id := some (pubkeyOf nk) }) ∧
        (unwrapAll cSimple aSimple [(1 : Scalar), 2] true
            (mkOnion cSimple 1 out.route)
            out.blinding)[[(1 : Scalar), 2].length - 1]?
          = some UnwrapOut.terminal) :=
  ⟨⟨by decide, by intro k hk; fin_cases hk <;> decide⟩,
    create_unwrap_round_trip cSimple aSimple [1, 2] 1 (by decide)
      (by intro k hk; fin_cases hk <;> decide)⟩

/-- A packet whose single (hence terminal) layer carries a payload that does
contain an `enctlv` field; the layer is sealed for private key 1 with
blinding point 2 under the concrete primitives and the first-hop flag. -/
def c2op : OnionPacket :=
  ⟨[⟨7, 7, 18 :: 4 :: 16 :: List.replicate 16 9⟩]⟩

/-- C2 counterexample: the mix-net layer signals route termination, the
decoded outer TLV DOES contain an `enctlv` field, and unwrap still reports
terminal delivery — the code checks only `nextcase == ONION_END` and never
looks at `enctlv` before printing TERMINAL. -/
theorem unwrap_terminal_despite_enctlv :
    unwrap cSimple aSimple true 1 c2op 2 = UnwrapOut.terminal ∧
    process c2op (unwrapOnionSS cSimple true 1 c2op 2)
      = some ⟨18 :: 4 :: 16 :: List.replicate 16 9, ⟨[]⟩, true⟩ ∧
    fromwire_onionmsg_payload (4 :: 16 :: List.replicate 16 9)
      = some { enctlv := some (List.replicate 16 9) } := by
  refine ⟨?_, ?_, ?_⟩ <;> decide

/-- C2 amended: unwrap reports terminal delivery exactly when the mix-net
layer signals route termination (after the hop payload was successfully
framed and decoded) — whether or not an `enctlv` field is present in the
decoded outer TLV. -/
theorem unwrap_terminal_iff (C : Crypto) (A : Aead) (first : Bool)
    (k : Scalar) (op : OnionPacket) (E : Point) :
    unwrap C A first k op E = UnwrapOut.terminal ↔
      ∃ rs len rest outer,
        process op (unwrapOnionSS C first k op E) = some rs ∧
        fromwire_bigsize rs.rawPayload = some (len, rest) ∧
        len = rest.length ∧
        fromwire_onionmsg_payload rest = some outer ∧
        rs.isTerminal = true := by
  constructor
  · intro h
    simp only [unwrap] at h
    split at h
    next => simp at h
    next rs hps =>
      split at h
      next => simp at h
      next len rest hbs =>
        split at h
        next hlen =>
          split at h
          next => simp at h
          next outer hout =>
            split at h
            next hterm =>
              exact ⟨rs, len, rest, outer, hps, hbs, hlen, hout, hterm⟩
            next hterm =>
              split at h
              next => simp at h
              next ct hct =>
                split at h
                next => simp at h
                next =>
                  split at h
                  next => simp at h
                  next => simp at h
        next hlen => simp at h
  · intro ⟨rs, len, rest, outer, hps, hbs, hlen, hout, hterm⟩
    subst hlen
    simp only [unwrap, unwrapOnionSS] at hps ⊢
    simp [hps, hbs, hout, hterm]

/-- A packet whose exposed ephemeral key (3) differs from the received
blinding point (2). -/
def c3op : OnionPacket := ⟨[⟨3, 0, []⟩]⟩

/-- C3 counterexample: in a non-first-hop unwrap the secret handed to the
mix-net layer is NOT `deriveSharedSecret(k, tweakPoint(E, tweak))` for the
received blinding point E — the code tweaks the onion packet's ephemeral
key, which in general differs from E. -/
theorem unwrap_onion_ss_not_blinding_based :
    unwrapOnionSS cSimple false 1 c3op 2
      ≠ ecdh cSimple 1
          (tweakPoint 2
            (subkey_from_hmac cSimple blindedLabel (ecdh cSimple 1 2))) := by
  decide

/-- C3 amended: the tweak is still derived from `ECDH(k, E)` for the received
blinding point E, but it is applied to the onion packet's ephemeral key:
`onion_ss = ECDH(k, op.ephemeralkey)` at the designated first hop and
`onion_ss = ECDH(k, tweakPoint(op.ephemeralkey, tweak))` otherwise; this is
the secret unwrap consults the mix-net layer with. -/
theorem unwrap_effective_ephemeral (C : Crypto) (A : Aead) (first : Bool)
    (k : Scalar) (op : OnionPacket) (E : Point) :
    unwrapOnionSS C true k op E = ecdh C k op.ephemeralkey ∧
    unwrapOnionSS C false k op E
      = ecdh C k (tweakPoint op.ephemeralkey
          (subkey_from_hmac C blindedLabel (ecdh C k E))) ∧
    (process op (unwrapOnionSS C first k op E) = none →
      unwrap C A first k op E = UnwrapOut.err msgNoProcess) := by
  refine ⟨rfl, rfl, ?_⟩
  intro h
  simp only [unwrapOnionSS] at h
  simp only [unwrap]
  simp [h]

/-- C3 amended witness: the packet's stored secret (0) differs from the
handed secret, so processing fails and unwrap reports it. -/
theorem unwrap_effective_ephemeral_witness :
    unwrapOnionSS cSimple true 1 c3op 2 = ecdh cSimple 1 c3op.ephemeralkey ∧
    unwrapOnionSS cSimple false 1 c3op 2
      = ecdh cSimple 1 (tweakPoint c3op.ephemeralkey
          (subkey_from_hmac cSimple blindedLabel (ecdh cSimple 1 2))) ∧
    unwrap cSimple aSimple false 1 c3op 2 = UnwrapOut.err msgNoProcess := by
  obtain ⟨h1, h2, h3⟩ :=
    unwrap_effective_ephemeral cSimple aSimple false 1 c3op 2
  exact ⟨h1, h2, h3 (by decide)⟩

/-- The per-index shape of the create chain: every entry records its node,
its shared secret is the ECDH of the chain scalar with that node, and its
blinded identity is the node itself at index 0 (when the first flag is set)
and the tweaked node otherwise. -/
theorem createHops_get (C : Crypto) :
    ∀ (ns : List Point) (f : Bool) (e : Scalar) (pkE : Point) (i : ℕ)
      (n : Point), ns[i]? = some n →
      ∃ h, (createHops C f e pkE ns)[i]? = some h ∧ h.node = n ∧
        h.ss = ecdh C h.e n ∧
        h.b = if i = 0 ∧ f = true then n
          else tweakPoint n (subkey_from_hmac C blindedLabel h.ss) := by
  intro ns
  induction ns with
  | nil => intro f e pkE i n hn; simp at hn
  | cons n0 rest ih =>
    intro f e pkE i n hn
    have hcons : createHops C f e pkE (n0 :: rest)
        = { e := e, pkE := pkE, node := n0, ss := ecdh C e n0,
            b := if f then n0
              else tweakPoint n0
                (subkey_from_hmac C blindedLabel (ecdh C e n0)),
            rho := subkey_from_hmac C rhoLabel (ecdh C e n0) } ::
          createHops C false
            (next_privkey e (hash_e_and_ss C pkE (ecdh C e n0)))
            (next_pubkey pkE (hash_e_and_ss C pkE (ecdh C e n0))) rest := rfl
    cases i with
    | zero =>
      rw [List.getElem?_cons_zero] at hn
      obtain rfl : n0 = n := Option.some.inj hn
      refine ⟨{ e := e, pkE := pkE, node := n0, ss := ecdh C e n0,
                b := if f then n0
                  else tweakPoint n0
                    (subkey_from_hmac C blindedLabel (ecdh C e n0)),
                rho := subkey_from_hmac C rhoLabel (ecdh C e n0) },
        ?_, rfl, rfl, ?_⟩
      · rw [hcons, List.getElem?_cons_zero]
      · show (if f then n0
            else tweakPoint n0
              (subkey_from_hmac C blindedLabel (ecdh C e n0)))
          = if (0 : ℕ) = 0 ∧ f = true then n0
            else tweakPoint n0 (subkey_from_hmac C blindedLabel (ecdh C e n0))
        cases f <;> simp
    | succ j =>
      rw [List.getElem?_cons_succ] at hn
      obtain ⟨h, hh, hnode, hss, hb⟩ :=
        ih false (next_privkey e (hash_e_and_ss C pkE (ecdh C e n0)))
          (next_pubkey pkE (hash_e_and_ss C pkE (ecdh C e n0))) j n hn
      refine ⟨h, ?_, hnode, hss, ?_⟩
      · rw [hcons, List.getElem?_cons_succ]
        exact hh
      · rw [hb]
        simp

/-- The published pairs of the create output carry exactly the per-hop
blinded identities, index by index. -/
theorem mkPayloads_fst (C : Crypto) (A : Aead) :
    ∀ (hs : List Hop) (i : ℕ),
      ((mkPayloads C A hs)[i]?).map Prod.fst = (hs[i]?).map Hop.b := by
  intro hs
  induction hs with
  | nil => intro i; simp [mkPayloads]
  | cons h tl ih =>
    intro i
    cases tl with
    | nil =>
      cases i with
      | zero => simp [mkPayloads]
      | succ j => simp [mkPayloads]
    | cons h2 tl2 =>
      cases i with
      | zero => simp [mkPayloads]
      | succ j =>
        show ((mkPayloads C A (h :: h2 :: tl2))[j + 1]?).map Prod.fst
          = ((h :: h2 :: tl2)[j + 1]?).map Hop.b
        rw [show mkPayloads C A (h :: h2 :: tl2)
          = (h.b, framedPayload C A h.rho h2.node) ::
            mkPayloads C A (h2 :: tl2) from rfl]
        rw [List.getElem?_cons_succ, List.getElem?_cons_succ]
        exact ih j

/-- C4: in create, for every node list, the published blinded identity of
hop 0 equals node 0's public key unchanged, and for every hop i > 0 it
equals node i's public key multiplied by the tweak
`deriveSubkey("blinded_node_id", ss(i))` where ss(i) is the Diffie-Hellman
secret between the hop-i ephemeral scalar and node i. -/
theorem create_blinded_ids (C : Crypto) (A : Aead) (ns : List Point) (i : ℕ)
    (n : Point) (hn : ns[i]? = some n) :
    ∃ h, (createHops C true e0 (pubkeyOf e0) ns)[i]? = some h ∧
      h.node = n ∧ h.ss = ecdh C h.e n ∧
      h.b = (if i = 0 then n
        else tweakPoint n (subkey_from_hmac C blindedLabel h.ss)) ∧
      ((createRun C A e0 ns).route[i]?).map Prod.fst = some h.b := by
  obtain ⟨h, hh, hnode, hss, hb⟩ :=
    createHops_get C ns true e0 (pubkeyOf e0) i n hn
  refine ⟨h, hh, hnode, hss, ?_, ?_⟩
  · rw [hb]
    by_cases h0 : i = 0 <;> simp [h0]
  · have hfst := mkPayloads_fst C A (createHops C true e0 (pubkeyOf e0) ns) i
    rw [show (createRun C A e0 ns).route
      = mkPayloads C A (createHops C true e0 (pubkeyOf e0) ns) from rfl]
    rw [hfst, hh]
    rfl

/-- C4 witness: the two-node route [5, 7], index 1. -/
theorem create_blinded_ids_witness :
    ([(5 : Point), 7][1]? = some 7) ∧
    (∃ h, (createHops cSimple true e0 (pubkeyOf e0) [5, 7])[1]? = some h ∧
      h.node = 7 ∧ h.ss = ecdh cSimple h.e 7 ∧
      h.b = (if 1 = 0 then 7
        else tweakPoint 7 (subkey_from_hmac cSimple blindedLabel h.ss)) ∧
      ((createRun cSimple aSimple e0 [5, 7]).route[1]?).map Prod.fst
        = some h.b) :=
  ⟨by decide, create_blinded_ids cSimple aSimple [5, 7] 1 7 (by decide)⟩

/-- C5: whenever unwrap succeeds, the next blinding point it prints equals
the received blinding point E multiplied by the SHA256 of the 33-byte
compressed encoding of E concatenated with the 32-byte shared secret
`ECDH(k, E)`. -/
theorem unwrap_next_blinding (C : Crypto) (A : Aead) (first : Bool)
    (k : Scalar) (op : OnionPacket) (E : Point) (c : List ℕ) (nb : Point)
    (op2 : OnionPacket)
    (h : unwrap C A first k op E = UnwrapOut.success c nb op2) :
    nb = tweakPoint E
        (C.sha256 (C.compress E ++ C.serSecret (ecdh C k E))) ∧
    (C.compress E).length = 33 ∧ (C.serSecret (ecdh C k E)).length = 32 := by
  refine ⟨?_, C.compress_len E, C.serSecret_len _⟩
  simp only [unwrap] at h
  split at h
  next => simp at h
  next rs hps =>
    split at h
    next => simp at h
    next len rest hbs =>
      split at h
      next hlen =>
        split at h
        next => simp at h
        next outer hout =>
          split at h
          next hterm => simp at h
          next hterm =>
            split at h
            next => simp at h
            next ct hct =>
              split at h
              next => simp at h
              next =>
                split at h
                next => simp at h
                next dec hdec =>
                  simp only [UnwrapOut.success.injEq] at h
                  obtain ⟨h1, h2, h3⟩ := h
                  rw [← h2]
                  rfl
      next hlen => simp at h

/-- The packet used in the C5 witness: two layers, the first sealed for
private key 1 with blinding point 2 under the concrete primitives and the
first-hop flag, its payload naming next node 9. -/
def c5op : OnionPacket :=
  ⟨[⟨7, 7, framedPayload cSimple aSimple 5 9⟩, ⟨0, 0, [0]⟩]⟩

/-- C5 witness: a concrete successful unwrap, with the next blinding point
evaluated. -/
theorem unwrap_next_blinding_witness :
    unwrap cSimple aSimple true 1 c5op 2
      = UnwrapOut.success (towire_encmsg cSimple { next_node_id := some 9 })
          (next_pubkey 2 (hash_e_and_ss cSimple 2 2)) ⟨[⟨0, 0, [0]⟩]⟩ ∧
    (next_pubkey 2 (hash_e_and_ss cSimple 2 2)
        = tweakPoint 2
            (cSimple.sha256
              (cSimple.compress 2 ++ cSimple.serSecret (ecdh cSimple 1 2))) ∧
      (cSimple.compress 2).length = 33 ∧
      (cSimple.serSecret (ecdh cSimple 1 2)).length = 32) := by
  have hEq : unwrap cSimple aSimple true 1 c5op 2
      = UnwrapOut.success (towire_encmsg cSimple { next_node_id := some 9 })
          (next_pubkey 2 (hash_e_and_ss cSimple 2 2)) ⟨[⟨0, 0, [0]⟩]⟩ := by
    decide
  exact ⟨hEq, unwrap_next_blinding cSimple aSimple true 1 c5op 2 _ _ _ hEq⟩

/-- C6: in a non-terminal unwrap, a missing `enctlv` field, an `enctlv`
shorter than the 16-byte AEAD tag, or an authentication failure each make
the program exit with code 1 and a descriptive message — no decrypted
contents, next blinding point or next onion are delivered, and no
unauthenticated plaintext is substituted. -/
theorem unwrap_rejects_bad_enctlv (C : Crypto) (A : Aead) (first : Bool)
    (k : Scalar) (op : OnionPacket) (E : Point) (rs : RouteStep) (len : ℕ)
    (rest : List ℕ) (outer : TlvOnionmsgPayload)
    (hps : process op (unwrapOnionSS C first k op E) = some rs)
    (hbs : fromwire_bigsize rs.rawPayload = some (len, rest))
    (hlen : len = rest.length)
    (hout : fromwire_onionmsg_payload rest = some outer)
    (hterm : rs.isTerminal = false)
    (hbad : outer.enctlv = none ∨
      (∃ ct, outer.enctlv = some ct ∧ ct.length < 16) ∨
      (∃ ct, outer.enctlv = some ct ∧ 16 ≤ ct.length ∧
        A.dec (subkey_from_hmac C rhoLabel (ecdh C k E)) ct = none)) :
    (∃ msg, unwrap C A first k op E = UnwrapOut.err msg) ∧
    (∀ c nb op2, unwrap C A first k op E ≠ UnwrapOut.success c nb op2) ∧
    unwrap C A first k op E ≠ UnwrapOut.terminal := by
  subst hlen
  simp only [unwrapOnionSS] at hps
  obtain ⟨M, hM⟩ : ∃ M, unwrap C A first k op E = UnwrapOut.err M := by
    rcases hbad with hnone | ⟨ct, hct, hshort⟩ | ⟨ct, hct, hlong, hdec⟩
    · refine ⟨msgNoEnctlv, ?_⟩
      simp only [unwrap]
      simp [hps, hbs, hout, hterm, hnone]
    · refine ⟨msgEnctlvShort, ?_⟩
      simp only [unwrap]
      simp [hps, hbs, hout, hterm, hct, hshort]
    · refine ⟨msgDecryptFailed, ?_⟩
      have hnotlt : ¬ ct.length < 16 := not_lt.mpr hlong
      simp only [unwrap]
      simp [hps, hbs, hout, hterm, hct, hnotlt, hdec]
  rw [hM]
  refine ⟨⟨M, rfl⟩, ?_, ?_⟩
  · intro c nb op2 hc
    cases hc
  · intro hc
    cases hc

/-- The packet used in the C6 witness: the first layer's payload decodes to
an outer TLV with no `enctlv` field, and a second layer follows so the route
is not terminal. -/
def c6op : OnionPacket := ⟨[⟨7, 7, [0]⟩, ⟨0, 0, [0]⟩]⟩

/-- C6 witness: a concrete non-terminal unwrap with a missing `enctlv`. -/
theorem unwrap_rejects_bad_enctlv_witness :
    (∃ msg, unwrap cSimple aSimple true 1 c6op 2 = UnwrapOut.err msg) ∧
    (∀ c nb op2,
      unwrap cSimple aSimple true 1 c6op 2 ≠ UnwrapOut.success c nb op2) ∧
    unwrap cSimple aSimple true 1 c6op 2 ≠ UnwrapOut.terminal :=
  unwrap_rejects_bad_enctlv cSimple aSimple true 1 c6op 2
    ⟨[0], ⟨[⟨0, 0, [0]⟩]⟩, false⟩ 0 [] { enctlv := none }
    (by decide) (by decide) (by decide) (by decide) (by decide) (Or.inl rfl)

/-- C7: create is deterministic — two runs given the same initial ephemeral
private key and the same ordered node list print the same initial blinding
point and the same per-hop blinded identities and payload bytes.  The
embedding is a pure function of exactly these two inputs, so determinism is
by construction. -/
theorem create_deterministic (C : Crypto) (A : Aead) (e1 e2 : Scalar)
    (ns1 ns2 : List Point) (he : e1 = e2) (hn : ns1 = ns2) :
    (createRun C A e1 ns1).blinding = (createRun C A e2 ns2).blinding ∧
    (createRun C A e1 ns1).route = (createRun C A e2 ns2).route := by
  subst he
  subst hn
  exact ⟨rfl, rfl⟩

/-- C7 witness. -/
theorem create_deterministic_witness :
    (createRun cSimple aSimple e0 [5]).blinding
        = (createRun cSimple aSimple e0 [5]).blinding ∧
    (createRun cSimple aSimple e0 [5]).route
        = (createRun cSimple aSimple e0 [5]).route :=
  create_deterministic cSimple aSimple e0 e0 [5] [5] rfl rfl

/-- Modelled from the spec: `pubkey_from_hexstr` applied to the first
`strcspn(arg, "/")` characters of a node-id argument — the hex/point parser
itself is an external CLI concern, carried as the parameter `P`; the create
branch hands it only the characters before the first slash. -/
def parseNodeArg (P : List Char → Option Point) (arg : List Char) :
    Option Point :=
  P (arg.takeWhile (fun c => c != '/'))

/-- Parse the node-id arguments in order, failing on the first invalid one
(`errx "%s not a valid pubkey"`). -/
def parseArgs (P : List Char → Option Point) :
    List (List Char) → Option (List Point)
  | [] => some []
  | a :: as =>
    match parseNodeArg P a with
    | none => none
    | some n =>
      match parseArgs P as with
      | none => none
      | some ns => some (n :: ns)

/-- The create branch from its raw node-id arguments. -/
def createFromArgs (C : Crypto) (A : Aead) (P : List Char → Option Point)
    (args : List (List Char)) : Option CreateOut :=
  match parseArgs P args with
  | none => none
  | some nodes => create C A nodes

/-- Append an optional `/<shortChannelId>` suffix to one argument. -/
def addScidSuffix : List Char → Option (List Char) → List Char
  | a, none => a
  | a, some suf => a ++ '/' :: suf

theorem takeWhile_slash (a suf : List Char) :
    (a ++ '/' :: suf).takeWhile (fun c => c != '/')
      = a.takeWhile (fun c => c != '/') := by
  induction a with
  | nil => simp [List.takeWhile_cons]
  | cons c cs ih =>
    by_cases hc : (c != '/') = true
    · simp [List.takeWhile_cons, hc, ih]
    · simp [List.takeWhile_cons, hc]

theorem parse_args_suffix (P : List Char → Option Point) :
    ∀ (args : List (List Char)) (sufs : List (Option (List Char))),
      sufs.length = args.length →
      parseArgs P (List.zipWith addScidSuffix args sufs)
        = parseArgs P args := by
  intro args
  induction args with
  | nil => intro sufs h; simp
  | cons a as ih =>
    intro sufs h
    cases sufs with
    | nil => simp at h
    | cons s ss =>
      have h' : ss.length = as.length := by simpa using h
      have hps : parseNodeArg P (addScidSuffix a s) = parseNodeArg P a := by
        cases s with
        | none => rfl
        | some suf => exact congrArg P (takeWhile_slash a suf)
      simp [parseArgs, hps, ih ss h']

/-- C8: appending a `/<shortChannelId>` suffix to any combination of
node-id arguments of create does not change the output — the suffix is
parsed off and never incorporated into payload construction. -/
theorem create_ignores_scid_suffix (C : Crypto) (A : Aead)
    (P : List Char → Option Point) (args : List (List Char))
    (sufs : List (Option (List Char))) (hlen : sufs.length = args.length) :
    createFromArgs C A P (List.zipWith addScidSuffix args sufs)
      = createFromArgs C A P args := by
  unfold createFromArgs
  rw [parse_args_suffix P args sufs hlen]

/-- An example hex/point parser for the C8 witness. -/
def pEx : List Char → Option Point :=
  fun l => if l = ['a', 'b'] then some 5 else none

/-- C8 witness: one argument with a suffix appended. -/
theorem create_ignores_scid_suffix_witness :
    createFromArgs cSimple aSimple pEx
        (List.zipWith addScidSuffix [['a', 'b']] [some ['1', 'x']])
      = createFromArgs cSimple aSimple pEx [['a', 'b']] :=
  create_ignores_scid_suffix cSimple aSimple pEx [['a', 'b']]
    [some ['1', 'x']] (by decide)

/-- C9: create draws no randomness — the initial ephemeral private key is
the fixed constant whose 32 bytes are each 0x06, so the printed initial
blinding point is that fixed public key, independent of the node list. -/
theorem create_fixed_ephemeral (C : Crypto) (A : Aead) (ns : List Point)
    (h : ns ≠ []) :
    create C A ns = some (createRun C A
        ((0x0606060606060606060606060606060606060606060606060606060606060606
          : ℕ) : Scalar) ns) ∧
    (createRun C A e0 ns).blinding
      = ((0x0606060606060606060606060606060606060606060606060606060606060606
          : ℕ) : Scalar) := by
  have he : e0 =
      ((0x0606060606060606060606060606060606060606060606060606060606060606
        : ℕ) : Scalar) := by decide
  constructor
  · unfold create
    rw [if_neg (by simpa [List.isEmpty_iff] using h), he]
  · rw [show (createRun C A e0 ns).blinding = pubkeyOf e0 from rfl,
      show pubkeyOf e0 = e0 from rfl, he]

/-- C9 witness. -/
theorem create_fixed_ephemeral_witness :
    create cSimple aSimple [5] = some (createRun cSimple aSimple
        ((0x0606060606060606060606060606060606060606060606060606060606060606
          : ℕ) : Scalar) [5]) ∧
    (createRun cSimple aSimple e0 [5]).blinding
      = ((0x0606060606060606060606060606060606060606060606060606060606060606
          : ℕ) : Scalar) :=
  create_fixed_ephemeral cSimple aSimple [5] (by decide)

/-- C10: when the bigsize length prefix of the recovered hop payload
disagrees with the number of remaining bytes, the `assert(len == max)`
aborts the process — unwrap neither exits with a parse-error message nor
delivers anything. -/
theorem unwrap_length_assert (C : Crypto) (A : Aead) (first : Bool)
    (k : Scalar) (op : OnionPacket) (E : Point) (rs : RouteStep) (len : ℕ)
    (rest : List ℕ)
    (hps : process op (unwrapOnionSS C first k op E) = some rs)
    (hbs : fromwire_bigsize rs.rawPayload = some (len, rest))
    (hne : len ≠ rest.length) :
    unwrap C A first k op E = UnwrapOut.assertFail ∧
    (∀ msg, UnwrapOut.assertFail ≠ UnwrapOut.err msg) ∧
    (∀ c nb op2, UnwrapOut.assertFail ≠ UnwrapOut.success c nb op2) := by
  refine ⟨?_, ?_, ?_⟩
  · simp only [unwrapOnionSS] at hps
    simp only [unwrap]
    simp [hps, hbs, hne]
  · intro msg hmsg
    cases hmsg
  · intro c nb op2 hc
    cases hc

/-- The packet used in the C10 witness: its payload claims 5 bytes but only
1 remains. -/
def c10op : OnionPacket := ⟨[⟨7, 7, [5, 1]⟩]⟩

/-- C10 witness: the length assertion fires on a concrete packet. -/
theorem unwrap_length_assert_witness :
    unwrap cSimple aSimple true 1 c10op 2 = UnwrapOut.assertFail ∧
    (∀ msg, UnwrapOut.assertFail ≠ UnwrapOut.err msg) ∧
    (∀ c nb op2, UnwrapOut.assertFail ≠ UnwrapOut.success c nb op2) :=
  unwrap_length_assert cSimple aSimple true 1 c10op 2 ⟨[5, 1], ⟨[]⟩, true⟩
    5 [1] (by decide) (by decide) (by decide)

end BlindedPath
